import Mathlib

/-
Verification of the PTM task-parsing and aggregation core.

The Python source (src/app.py and src/common.py of hardik-vala/PTM) is
shallowly embedded below.  Strings are `List Char`; Python `datetime`
values are modelled as seconds since the Unix epoch (`Int`), with
`datetime(y, m, d)` mapping to `dateToSec y m d` (midnight) and
`datetime.weekday()` to `pyWeekdayOfSec` (Monday = 0 .. Sunday = 6).
Fallible Python code (the `datetime` constructor raising `ValueError` on
an invalid calendar date, `int(...)` raising on a non-numeric string)
is modelled with `Except Unit`.  Regular-expression operations are
embedded as explicit scanners that implement the exact semantics of the
patterns appearing in the source; scanners that advance by more than one
character per step take a fuel argument (instantiated with the string
length by their wrappers) so that they are structurally recursive and
kernel-computable.
-/

namespace PTM

/-- Python `\w` (ASCII fragment): letters, digits and underscore. -/
def wordChar (c : Char) : Bool := c.isAlphanum || c = '_'

/-- Value of a run of decimal digits, as computed by Python `int` on it. -/
def digitsToNat (ds : List Char) : Nat :=
  ds.foldl (fun a c => a * 10 + (c.toNat - 48)) 0

/-! ### Calendar arithmetic (proleptic Gregorian, as used by `datetime`) -/

def isLeap (y : Nat) : Bool := y % 4 = 0 && (y % 100 != 0 || y % 400 = 0)

def daysInMonth (y m : Nat) : Nat :=
  if m = 2 then (if isLeap y then 29 else 28)
  else if m = 4 || m = 6 || m = 9 || m = 11 then 30
  else 31

/-- The validity check performed by the `datetime(year, month, day)`
constructor; outside this range it raises `ValueError`. -/
def validDate (y m d : Nat) : Bool :=
  1 ≤ y && y ≤ 9999 && 1 ≤ m && m ≤ 12 && 1 ≤ d && d ≤ daysInMonth y m

/-- Days from 1970-01-01 to the given civil date (days-from-civil
algorithm, valid for the years accepted by `validDate`). -/
def dateToDay (y m d : Nat) : Int :=
  let y2 : Nat := if m ≤ 2 then y - 1 else y
  let era : Nat := y2 / 400
  let yoe : Nat := y2 - era * 400
  let mp : Nat := if 2 < m then m - 3 else m + 9
  let doy : Nat := (153 * mp + 2) / 5 + d - 1
  let doe : Nat := yoe * 365 + yoe / 4 - yoe / 100 + doy
  (era * 146097 + doe : Int) - 719468

def secPerDay : Int := 86400

/-- `datetime(y, m, d)` (midnight), as seconds since the epoch. -/
def dateToSec (y m d : Nat) : Int := dateToDay y m d * secPerDay

/-- Calendar day of a timestamp: the `%Y-%m-%d` part of `strftime`. -/
def dayOfSec (s : Int) : Int := Int.fdiv s secPerDay

/-- Python `datetime.weekday()`: Monday = 0 .. Sunday = 6
(1970-01-01 was a Thursday). -/
def pyWeekdayOfSec (s : Int) : Int := (dayOfSec s + 3) % 7

/-! ### The due-date marker search

`TaskStore._extract_due_date` runs
`re.search(r'<time startYear="(\d+)" startMonth="(\d+)" startDay="(\d+)">', nm)`.
The pattern is literal text around three greedy digit groups, each
followed by a non-digit literal, so the leftmost match is found by the
deterministic scanner below. -/

/-- Drop a literal prefix, or fail. -/
def dropLit (pat l : List Char) : Option (List Char) :=
  if pat.isPrefixOf l then some (l.drop pat.length) else none

/-- Try to match the full time marker at the head of `l`, returning the
three digit groups. -/
def matchMarker (l : List Char) : Option (Nat × Nat × Nat) :=
  match dropLit ("<time startYear=\"".toList) l with
  | none => none
  | some l1 =>
    let ys := l1.takeWhile Char.isDigit
    if ys.isEmpty then none else
    match dropLit ("\" startMonth=\"".toList) (l1.drop ys.length) with
    | none => none
    | some l2 =>
      let ms := l2.takeWhile Char.isDigit
      if ms.isEmpty then none else
      match dropLit ("\" startDay=\"".toList) (l2.drop ms.length) with
      | none => none
      | some l3 =>
        let ds := l3.takeWhile Char.isDigit
        if ds.isEmpty then none else
        match dropLit ("\">".toList) (l3.drop ds.length) with
        | none => none
        | some _ => some (digitsToNat ys, digitsToNat ms, digitsToNat ds)

/-- Leftmost match of the time-marker pattern (`re.search`). -/
def findMarker : List Char → Option (Nat × Nat × Nat)
  | [] => none
  | c :: rest =>
    match matchMarker (c :: rest) with
    | some r => some r
    | none => findMarker rest

/-- `TaskStore._extract_due_date`: on a match, build
`datetime(year, month, day)` — which raises `ValueError` when the digit
groups do not form a valid calendar date; on no match return `None`. -/
def extractDueDate (nm : List Char) : Except Unit (Option Int) :=
  match findMarker nm with
  | none => .ok none
  | some (y, m, d) =>
    if validDate y m d then .ok (some (dateToSec y m d)) else .error ()

/-! ### Hashtag extraction and the strip functions

`_extract_tags` is `re.findall(r"(#\w+)", nm)`; `_strip_hashtags` is
`re.sub(r"#(\w+)", "", nm)`.  Both scan left to right; at a `#` followed
by at least one word character the greedy match `#\w+` is taken and the
scan resumes after it, otherwise the scan advances one character. -/

def extractTagsF : Nat → List Char → List (List Char)
  | 0, _ => []
  | _ + 1, [] => []
  | f + 1, c :: rest =>
    if c = '#' then
      let run := rest.takeWhile wordChar
      if run.isEmpty then extractTagsF f rest
      else ('#' :: run) :: extractTagsF f (rest.drop run.length)
    else extractTagsF f rest

/-- `TaskStore._extract_tags`. -/
def extractTags (nm : List Char) : List (List Char) := extractTagsF nm.length nm

def stripHashtagsF : Nat → List Char → List Char
  | 0, _ => []
  | _ + 1, [] => []
  | f + 1, c :: rest =>
    if c = '#' then
      let run := rest.takeWhile wordChar
      if run.isEmpty then c :: stripHashtagsF f rest
      else stripHashtagsF f (rest.drop run.length)
    else c :: stripHashtagsF f rest

/-- `TaskStore._strip_hashtags`. -/
def stripHashtags (nm : List Char) : List Char := stripHashtagsF nm.length nm

/-- Interleave the non-tag segments of a raw name with its tags:
`interleaveTags [s0, s1, ..., sn] [t1, ..., tn] = s0 ++ t1 ++ s1 ++ ... ++ tn ++ sn`.
Used to state that `extract_tags` and `strip_hashtags` decompose the
input exactly. -/
def interleaveTags : List (List Char) → List (List Char) → List Char
  | [], _ => []
  | s :: _, [] => s
  | s :: segs, t :: tags => s ++ t ++ interleaveTags segs tags

/-- No `#` in the string is immediately followed by a word character,
i.e. the string contains no `#\w+` match. -/
def noTagChain (l : List Char) : Prop :=
  List.Chain' (fun a b => a = '#' → wordChar b = false) l

/-- `re.sub("<.*?>", "", nm)`: at each `<`, the lazy `.*?` matches the
shortest run of non-newline characters followed by `>`; if a newline or
the end of the string intervenes before any `>` there is no match at
this position. -/
def stripHtmlTagsF : Nat → List Char → List Char
  | 0, _ => []
  | _ + 1, [] => []
  | f + 1, c :: rest =>
    if c = '<' then
      let t := rest.takeWhile (fun d => !(d = '>') && !(d = '\n'))
      match rest.drop t.length with
      | '>' :: rest2 => stripHtmlTagsF f rest2
      | _ => c :: stripHtmlTagsF f rest
    else c :: stripHtmlTagsF f rest

/-- `TaskStore._strip_html_tags`. -/
def stripHtmlTags (nm : List Char) : List Char := stripHtmlTagsF nm.length nm

/-- Scan for the literal `</time>` over non-newline characters (the lazy
`.*?</time>` tail of the due-date pattern); return the remainder after
it, or fail. -/
def dropDueClose : List Char → Option (List Char)
  | [] => none
  | c :: rest =>
    if ("</time>".toList).isPrefixOf (c :: rest) then some ((c :: rest).drop 7)
    else if c = '\n' then none
    else dropDueClose rest

/-- `re.sub(r", Due <time .*?</time>", "", nm)`. -/
def stripDueDateF : Nat → List Char → List Char
  | 0, _ => []
  | _ + 1, [] => []
  | f + 1, c :: rest =>
    if (", Due <time ".toList).isPrefixOf (c :: rest) then
      match dropDueClose ((c :: rest).drop 12) with
      | some rest2 => stripDueDateF f rest2
      | none => c :: stripDueDateF f rest
    else c :: stripDueDateF f rest

/-- `TaskStore._strip_due_date`. -/
def stripDueDate (nm : List Char) : List Char := stripDueDateF nm.length nm

/-- `TaskStore._extract_task_name`:
`_strip_html_tags(_strip_hashtags(_strip_due_date(nm)))`. -/
def extractTaskName (nm : List Char) : List Char :=
  stripHtmlTags (stripHashtags (stripDueDate nm))

/-! ### The task model and the normalizer (`TaskStore._parse_tasks`) -/

/-- One raw tree node, as consumed from `tree_data["items"]`: `id`,
`prnt` (parent id or the literal string `"None"`), `nm` (the markup
name, required), and the optional completion offset `cp` (seconds since
the account-join epoch). -/
structure RawNode where
  id : List Char
  prnt : List Char
  nm : List Char
  cp : Option Int
deriving DecidableEq

/-- The `Task` dataclass of `src/app.py` (timestamps as epoch seconds). -/
structure Task where
  id : List Char
  parent_id : Option (List Char)
  name : List Char
  due_date : Option Int
  tags : List (List Char)
  completion_date : Option Int
  is_action : Bool
  is_goal : Bool
  story_points : Option Nat
deriving DecidableEq

/-- `tag[1:-3]`: the characters of a tag strictly between the leading
`#` and the trailing `"STP"`. -/
def stpMid (t : List Char) : List Char := (t.drop 1).take (t.length - 4)

def pyNatParseAux (acc : Nat) : List Char → Option Nat
  | [] => some acc
  | c :: rest =>
    if c.isDigit then pyNatParseAux (acc * 10 + (c.toNat - 48)) rest
    else if c = '_' then
      match rest with
      | d :: rest2 =>
        if d.isDigit then pyNatParseAux (acc * 10 + (d.toNat - 48)) rest2 else none
      | [] => none
    else none

/-- Python `int` on a string of word characters: a nonempty digit run,
possibly with single underscores between digits (`int("1_0") = 10`);
anything else raises `ValueError`. -/
def pyNatParse : List Char → Option Nat
  | [] => none
  | c :: rest => if c.isDigit then pyNatParseAux (c.toNat - 48) rest else none

/-- The story-point loop of `_parse_tasks`:
`for tag in tags: if tag.endswith("STP"): story_points = int(tag[1:-3])`.
`int` raises on a non-numeric middle. -/
def storyPointsLoop (acc : Option Nat) : List (List Char) → Except Unit (Option Nat)
  | [] => .ok acc
  | t :: rest =>
    if ("STP".toList).isSuffixOf t then
      match pyNatParse (stpMid t) with
      | some n => storyPointsLoop (some n) rest
      | none => .error ()
    else storyPointsLoop acc rest

/-- The body of the `_parse_tasks` loop: one raw node plus the
account-join epoch `e` becomes one `Task`.  `datetime.fromtimestamp`
is the identity in the epoch-seconds model.  The source evaluates
`_extract_due_date` before the story-point loop, so a `ValueError` from
the former wins; that order is preserved here. -/
def parseTask (e : Int) (node : RawNode) : Except Unit Task :=
  match extractDueDate node.nm with
  | .error u => .error u
  | .ok due_date =>
    match storyPointsLoop none (extractTags node.nm) with
    | .error u => .error u
    | .ok story_points =>
      .ok ⟨node.id,
           (if node.prnt = "None".toList then none else some node.prnt),
           extractTaskName node.nm, due_date, extractTags node.nm,
           node.cp.map (fun o => e + o),
           (extractTags node.nm).contains ("#Action".toList),
           (extractTags node.nm).contains ("#Goal".toList),
           story_points⟩

/-- `TaskStore._parse_tasks` over the whole item list. -/
def parseTasks (e : Int) (items : List RawNode) : Except Unit (List Task) :=
  items.mapM (parseTask e)

/-! ### `TaskList`: the id index and ancestor resolution -/

/-- `{t.id: t for t in tasks}`: a Python dict comprehension, in which a
duplicated id keeps the last task. -/
def mapLookup (tasks : List Task) (i : List Char) : Option Task :=
  tasks.foldl (fun acc t => if t.id = i then some t else acc) none

inductive WalkErr where
  | keyError
  | fuelOut
deriving DecidableEq

/-- The parent-walking `while` loop of `TaskList.getAncestors`, with
explicit fuel standing in for the (possibly diverging) iteration.  The
loop guard `while ancestor_id:` is Python truthiness: it stops on `None`
and on the empty string.  A missing key raises `KeyError`
(`WalkErr.keyError`); exhausted fuel (`WalkErr.fuelOut`) marks
non-termination of the source loop within that many iterations. -/
def walkF (tasks : List Task) : Nat → Option (List Char) → Except WalkErr (List (List Char))
  | _, none => .ok []
  | fuel, some i =>
    if i.isEmpty then .ok []
    else
      match fuel with
      | 0 => .error .fuelOut
      | Nat.succ f =>
        match mapLookup tasks i with
        | none => .error .keyError
        | some t => (walkF tasks f t.parent_id).map (fun c => i :: c)

/-- `TaskList.getAncestors`: look up the task, walk parent pointers
collecting ids, and return the walked list reversed
(root first, immediate parent last). -/
def getAncestors (tasks : List Task) (task_id : List Char) (fuel : Nat) :
    Except WalkErr (List (List Char)) :=
  match mapLookup tasks task_id with
  | none => .error .keyError
  | some t => (walkF tasks fuel t.parent_id).map List.reverse

/-- The successful runs of the ancestor walk: `WalkR tasks p c` says the
`while` loop started with `ancestor_id = p` terminates having appended
exactly the ids in `c`, in walk order. -/
inductive WalkR (tasks : List Task) : Option (List Char) → List (List Char) → Prop where
  | stop : WalkR tasks none []
  | stopEmpty : WalkR tasks (some []) []
  | step : ∀ i t c, i ≠ [] → mapLookup tasks i = some t →
      WalkR tasks t.parent_id c → WalkR tasks (some i) (i :: c)

/-- The runs of the ancestor walk that hit a dangling reference:
`WalkD tasks p pre` says the walk from `ancestor_id = p` passes the ids
in `pre` and then looks up an id absent from the index. -/
inductive WalkD (tasks : List Task) : Option (List Char) → List (List Char) → Prop where
  | here : ∀ j, j ≠ [] → mapLookup tasks j = none → WalkD tasks (some j) []
  | there : ∀ i t pre, i ≠ [] → mapLookup tasks i = some t →
      WalkD tasks t.parent_id pre → WalkD tasks (some i) (i :: pre)

/-- One parent-pointer step of the walk: from `i` to its parent `j`. -/
def PStep (tasks : List Task) (i j : List Char) : Prop :=
  ∃ t, mapLookup tasks i = some t ∧ t.parent_id = some j ∧ j ≠ []

/-- Every walkable parent reference is present in the index. -/
def ParentClosed (tasks : List Task) : Prop :=
  ∀ i t j, mapLookup tasks i = some t → t.parent_id = some j → j ≠ [] →
    ∃ u, mapLookup tasks j = some u

/-- No id is reachable from itself by following parent pointers. -/
def Acyclic (tasks : List Task) : Prop :=
  ∀ i, ¬ Relation.TransGen (PStep tasks) i i

/-! ### Daily buckets (`task_by_date_component`)

The dict is keyed by `due_date.strftime("%Y-%m-%d (%a)")`, which is
injective in the calendar day; the model keys buckets by the day number
`dayOfSec`.  The counts triple is
(actions, completed non-actions, pending non-actions). -/

def bump3 (c : Nat × Nat × Nat) (idx : Nat) : Nat × Nat × Nat :=
  if idx = 0 then (c.1 + 1, c.2.1, c.2.2)
  else if idx = 1 then (c.1, c.2.1 + 1, c.2.2)
  else (c.1, c.2.1, c.2.2 + 1)

def bumpDaily (m : List (Int × (Nat × Nat × Nat))) (k : Int) (idx : Nat) :
    List (Int × (Nat × Nat × Nat)) :=
  match m with
  | [] => []
  | (k2, c) :: rest =>
    if k2 = k then (k2, bump3 c idx) :: rest else (k2, c) :: bumpDaily rest k idx

/-- The pre-seeded window: `for i in range(31): ... today - timedelta(days=i)`. -/
def initDaily (today : Int) : List (Int × (Nat × Nat × Nat)) :=
  (List.range 31).map (fun (i : Nat) => (dayOfSec (today - (i : Int) * secPerDay), (0, 0, 0)))

/-- The bucket map built by `task_by_date_component`. -/
def taskByDate (today : Int) (tasks : List Task) : List (Int × (Nat × Nat × Nat)) :=
  tasks.foldl
    (fun m t =>
      match t.due_date with
      | some dd =>
        if today - 30 * secPerDay ≤ dd ∧ dd ≤ today then
          bumpDaily m (dayOfSec dd)
            (if t.is_action then 0 else if t.completion_date.isSome then 1 else 2)
        else m
      | none => m)
    (initDaily today)

/-! ### Weekly buckets (`get_completed_tasks_by_week`)

The dict key is the string
`f"{week_start.strftime(date_format)}-{week_end.strftime(date_format)}"`;
since `week_end = week_start + 7 days` and the dates involved are
midnights, the key is injective in `week_start`, by which the model
keys the buckets. -/

/-- `task.due_date - timedelta(days=task.due_date.weekday() + 1)`. -/
def weekStartOf (due : Int) : Int := due - (pyWeekdayOfSec due + 1) * secPerDay

/-- Append `t` to the bucket keyed `ws`, or append a fresh bucket at the
end (Python dict insertion order). -/
def addToWeekMap (m : List (Int × (List Task × Int × Int))) (ws we : Int) (t : Task) :
    List (Int × (List Task × Int × Int)) :=
  match m with
  | [] => [(ws, ([t], ws, we))]
  | (k, (l, s, e)) :: rest =>
    if k = ws then (k, (l ++ [t], s, e)) :: rest
    else (k, (l, s, e)) :: addToWeekMap rest ws we t

/-- The body of the `get_completed_tasks_by_week` loop. -/
def addWeekTask (m : List (Int × (List Task × Int × Int))) (t : Task) :
    List (Int × (List Task × Int × Int)) :=
  match t.completion_date, t.due_date with
  | some _, some due =>
    let ws := weekStartOf due
    addToWeekMap m ws (ws + 7 * secPerDay) t
  | _, _ => m

/-- `get_completed_tasks_by_week`. -/
def getCompletedTasksByWeek (tasks : List Task) :
    List (Int × (List Task × Int × Int)) :=
  tasks.foldl addWeekTask []

/-- Invariant of the weekly map: every bucket stores its own key as
`week_start` and `week_start + 7 days` as `week_end`. -/
def WeekMapInv (m : List (Int × (List Task × Int × Int))) : Prop :=
  ∀ k l s e, List.lookup k m = some (l, s, e) → s = k ∧ e = k + 7 * secPerDay

/-! ### Concrete inputs used by counterexamples and witnesses -/

/-- The raw node of the spec §8 example scenario. -/
def exampleNode : RawNode :=
  ⟨"1".toList, "None".toList,
   ("Ship v1 #Goal #Action, Due <time startYear=\"2024\" startMonth=\"3\" startDay=\"10\">today</time> #5STP").toList,
   none⟩

/-- The task the normalizer actually produces from `exampleNode` with
join epoch 1700000000.  Its name is `"Ship v1   "`: `_strip_due_date`
removes the whole `, Due <time ...>today</time>` block, inner text
included. -/
def exampleTask : Task :=
  ⟨"1".toList, none, "Ship v1   ".toList, some (dateToSec 2024 3 10),
   ["#Goal".toList, "#Action".toList, "#5STP".toList], none, true, true, some 5⟩

/-- A task carrying only an id and a parent pointer. -/
def mkTask (i : List Char) (p : Option (List Char)) : Task :=
  ⟨i, p, [], none, [], none, false, false, none⟩

def rootTask : Task := mkTask ("root".toList) none
def midTask : Task := mkTask ("mid".toList) (some ("root".toList))
def leafTask : Task := mkTask ("leaf".toList) (some ("mid".toList))

/-- A 3-level chain root → mid → leaf. -/
def chainTasks : List Task := [rootTask, midTask, leafTask]

def orphanTask : Task := mkTask ("orphan".toList) (some ("nowhere".toList))

/-- A collection with a dangling parent reference. -/
def danglingTasks : List Task := [orphanTask]

def cycTaskA : Task := mkTask ("a".toList) (some ("b".toList))
def cycTaskB : Task := mkTask ("b".toList) (some ("a".toList))

/-- A collection whose parent pointers form a 2-cycle. -/
def cycTasks : List Task := [cycTaskA, cycTaskB]

/-- A completed task due Wednesday 2024-03-13. -/
def wedTask : Task :=
  ⟨"w".toList, none, [], some (dateToSec 2024 3 13), [], some 1, false, false, none⟩

/-- A completed task due Thursday 2024-03-14 (same calendar week). -/
def thuTask : Task :=
  ⟨"t".toList, none, [], some (dateToSec 2024 3 14), [], some 2, false, false, none⟩

def weekDemoTasks : List Task := [wedTask, thuTask]

/-- A raw node with a completion offset of 5 seconds. -/
def cpNode : RawNode := ⟨"5".toList, "None".toList, "x".toList, some 5⟩

/-! ## Helper lemmas -/

/-- Shifting a timestamp by whole days shifts its calendar day. -/
theorem dayOfSec_sub_days (a i : Int) :
    dayOfSec (a - i * secPerDay) = dayOfSec a - i := by
  unfold dayOfSec secPerDay
  rw [Int.fdiv_eq_ediv _ (by norm_num), Int.fdiv_eq_ediv _ (by norm_num)]
  have h : a - i * 86400 = a + (-i) * 86400 := by ring
  rw [h, Int.add_mul_ediv_right _ _ (by norm_num : (86400 : Int) ≠ 0)]
  ring

/-! ## Claim C1: the §8 example scenario -/

/-- Claim C1, counterexample: on the §8 example input the normalizer
does not produce the name `"Ship v1  today"` — `_strip_due_date` deletes
the entire `, Due <time ...>today</time>` block, including the inner
text `today`, so the name it produces is `"Ship v1   "`. -/
theorem c1_example_name_cx :
    parseTask 1700000000 exampleNode = .ok exampleTask ∧
    exampleTask.name ≠ ("Ship v1  today".toList) :=
  ⟨rfl, by decide⟩

/-- Claim C1, amended: on the §8 example input the normalizer produces
a task with name `"Ship v1   "` (the whole due-date block, its inner
text included, is removed), tags `#Goal #Action #5STP` in order,
due date 2024-03-10, `is_goal`, `is_action`, story points 5, no parent
and no completion date. -/
theorem c1_example :
    parseTask 1700000000 exampleNode =
      .ok ⟨"1".toList, none, "Ship v1   ".toList, some (dateToSec 2024 3 10),
           ["#Goal".toList, "#Action".toList, "#5STP".toList], none,
           true, true, some 5⟩ := rfl

/-! ## Claim C2: the trailing daily window -/

/-- Claim C2, counterexample: the daily bucket map of
`task_by_date_component` for a task-free collection does not have 30
entries (the seeding loop is `for i in range(31)`). -/
theorem c2_thirty_buckets_cx : ¬ ((taskByDate 0 []).length = 30) := by decide

/-- Claim C2, amended: for a task-free collection the daily aggregator
returns exactly 31 buckets, one per calendar day of the window (today
and each of the 30 preceding days, in that order), with every count
zero. -/
theorem c2_daily_zero_fill (today : Int) :
    taskByDate today [] =
      (List.range 31).map (fun (i : Nat) => (dayOfSec today - (i : Int), (0, 0, 0))) := by
  have hfun : (fun i : Nat =>
        ((dayOfSec (today - (i : Int) * secPerDay), ((0 : Nat), (0 : Nat), (0 : Nat))) :
          Int × (Nat × Nat × Nat))) =
      (fun i : Nat => (dayOfSec today - (i : Int), (0, 0, 0))) :=
    funext (fun i => by rw [dayOfSec_sub_days])
  calc taskByDate today [] = initDaily today := rfl
    _ = _ := by
      unfold initDaily
      rw [hfun]

/-! ## Claim C4: due-date extraction and malformed markers -/

/-- Claim C4, counterexample: a marker whose digit fields do not form a
valid calendar date (month 13) is matched by the search pattern, and the
`datetime` constructor then raises `ValueError` instead of yielding
absent. -/
theorem c4_invalid_month_cx :
    extractDueDate
        (("Due <time startYear=\"2024\" startMonth=\"13\" startDay=\"1\">x</time>").toList) =
      .error () := rfl

/-- Claim C4, amended: when the leftmost marker match carries digit
fields that form a valid calendar date, `_extract_due_date` returns
exactly that date; when no marker matches (malformed or partial markers
simply fail to match) it returns absent without error.  A matched marker
with an invalid calendar date, however, raises. -/
theorem c4_due_date :
    (∀ (s : List Char) (y m d : Nat), findMarker s = some (y, m, d) →
        validDate y m d = true → extractDueDate s = .ok (some (dateToSec y m d))) ∧
    (∀ s : List Char, findMarker s = none → extractDueDate s = .ok none) := by
  constructor
  · intro s y m d h hv
    unfold extractDueDate
    rw [h]
    simp [hv]
  · intro s h
    unfold extractDueDate
    rw [h]

/-- Witness for C4 at concrete inputs: a valid marker yields its date,
a marker-free name yields absent. -/
theorem c4_due_date_witness :
    extractDueDate
        (("Plan, Due <time startYear=\"2024\" startMonth=\"3\" startDay=\"10\">t</time>").toList) =
      .ok (some (dateToSec 2024 3 10)) ∧
    extractDueDate ("no marker here".toList) = .ok none :=
  ⟨c4_due_date.1 _ 2024 3 10 rfl rfl, c4_due_date.2 _ rfl⟩

/-! ## Claim C5: story points -/

theorem storyPointsLoop_eq (tags : List (List Char)) : ∀ acc : Option Nat,
    (∀ t ∈ tags, ("STP".toList).isSuffixOf t = true → (pyNatParse (stpMid t)).isSome) →
    storyPointsLoop acc tags =
      .ok ((tags.filter (fun t => ("STP".toList).isSuffixOf t)).foldl
            (fun _ t => pyNatParse (stpMid t)) acc) := by
  induction tags with
  | nil => intro acc _; rfl
  | cons t rest ih =>
    intro acc h
    have hrest : ∀ u ∈ rest, ("STP".toList).isSuffixOf u = true →
        (pyNatParse (stpMid u)).isSome :=
      fun u hu => h u (List.mem_cons_of_mem t hu)
    by_cases hs : ("STP".toList).isSuffixOf t = true
    · have hsome := h t (List.mem_cons_self t rest) hs
      cases hp : pyNatParse (stpMid t) with
      | none => rw [hp] at hsome; exact absurd hsome (by simp)
      | some n =>
        rw [List.filter_cons_of_pos hs]
        simp only [List.foldl_cons]
        rw [hp]
        have hstep : storyPointsLoop acc (t :: rest) = storyPointsLoop (some n) rest := by
          simp only [storyPointsLoop]
          rw [if_pos hs, hp]
        rw [hstep]
        exact ih (some n) hrest
    · have hs2 : ("STP".toList).isSuffixOf t = false := by
        cases hb : ("STP".toList).isSuffixOf t
        · rfl
        · exact absurd hb hs
      rw [List.filter_cons_of_neg hs]
      have hstep : storyPointsLoop acc (t :: rest) = storyPointsLoop acc rest := by
        simp only [storyPointsLoop]
        rw [if_neg hs]
      rw [hstep]
      exact ih acc hrest

/-- Claim C5, amended: the story-point loop inspects every tag ending in
`"STP"` (not only `#<digits>STP`): for each such tag the text between
`#` and `STP` is parsed by Python `int` — digit runs, with underscores
allowed between digits — and the last such tag wins; a tag ending in
`"STP"` whose middle does not parse raises `ValueError`; when no tag
ends in `"STP"` the result is absent. -/
theorem c5_story_points (tags : List (List Char))
    (h : ∀ t ∈ tags, ("STP".toList).isSuffixOf t = true → (pyNatParse (stpMid t)).isSome) :
    storyPointsLoop none tags =
      .ok ((tags.filter (fun t => ("STP".toList).isSuffixOf t)).foldl
            (fun _ t => pyNatParse (stpMid t)) none) :=
  storyPointsLoop_eq tags none h

/-- Witness for C5: with tags `#Goal #2STP #5STP` the last match wins
and the result is 5. -/
theorem c5_story_points_witness :
    storyPointsLoop none ["#Goal".toList, "#2STP".toList, "#5STP".toList] =
      .ok (some 5) :=
  (c5_story_points ["#Goal".toList, "#2STP".toList, "#5STP".toList]
    (by decide)).trans rfl

/-- Claim C5, counterexample: a node whose only tag is `#WIPSTP` — a tag
that ends in `"STP"` but does not match `#<digits>STP` — makes the
normalizer raise (`int("WIP")`), rather than being ignored. -/
theorem c5_nonnumeric_stp_cx :
    parseTask 0 ⟨"9".toList, "None".toList, "Fix #WIPSTP".toList, none⟩ =
      .error () := rfl

/-! ## Claim C8: completion dates -/

/-- Claim C8: a parsed task's completion date is absent when the raw
node has no `cp` field, and is the join epoch plus the offset when it
does. -/
theorem c8_completion_date (e : Int) (node : RawNode) (t : Task)
    (h : parseTask e node = .ok t) :
    t.completion_date = node.cp.map (fun o => e + o) := by
  unfold parseTask at h
  cases hdd : extractDueDate node.nm with
  | error u => rw [hdd] at h; exact Except.noConfusion h
  | ok dd =>
    rw [hdd] at h
    cases hsp : storyPointsLoop none (extractTags node.nm) with
    | error u => rw [hsp] at h; exact Except.noConfusion h
    | ok sp =>
      rw [hsp] at h
      injection h with h2
      rw [← h2]

/-- Witness for C8: with join epoch 1700000000 and offset 5 the
completion date is 1700000005; `exampleNode` has no offset and gets
none. -/
theorem c8_completion_date_witness :
    (Task.mk ("5".toList) none ("x".toList) none [] (some (1700000000 + 5))
        false false none).completion_date =
      cpNode.cp.map (fun o => (1700000000 : Int) + o) ∧
    exampleTask.completion_date = exampleNode.cp.map (fun o => (1700000000 : Int) + o) :=
  ⟨c8_completion_date 1700000000 cpNode _ rfl,
   c8_completion_date 1700000000 exampleNode exampleTask rfl⟩

/-! ## Claims C7 and C10: ancestor resolution -/

theorem walkF_of_walkR {tasks : List Task} {p : Option (List Char)}
    {c : List (List Char)} (h : WalkR tasks p c) :
    ∀ fuel : Nat, c.length ≤ fuel → walkF tasks fuel p = .ok c := by
  induction h with
  | stop => intro fuel _; cases fuel <;> rfl
  | stopEmpty => intro fuel _; cases fuel <;> rfl
  | step i t c hne hlk _ ih =>
    intro fuel hf
    cases fuel with
    | zero => exact absurd hf (by simp)
    | succ f =>
      have hie : i.isEmpty = false := by
        cases i with
        | nil => exact absurd rfl hne
        | cons a as => rfl
      show walkF tasks (f + 1) (some i) = .ok (i :: c)
      simp only [walkF, hie, Bool.false_eq_true, if_false]
      rw [hlk]
      show (walkF tasks f t.parent_id).map (fun c2 => i :: c2) = .ok (i :: c)
      rw [ih f (by simpa using hf)]
      rfl

theorem walkF_of_walkD {tasks : List Task} {p : Option (List Char)}
    {pre : List (List Char)} (h : WalkD tasks p pre) :
    ∀ fuel : Nat, pre.length < fuel → walkF tasks fuel p = .error .keyError := by
  induction h with
  | here j hne hlk =>
    intro fuel hf
    cases fuel with
    | zero => exact absurd hf (by simp)
    | succ f =>
      have hie : j.isEmpty = false := by
        cases j with
        | nil => exact absurd rfl hne
        | cons a as => rfl
      show walkF tasks (f + 1) (some j) = .error .keyError
      simp only [walkF, hie, Bool.false_eq_true, if_false]
      rw [hlk]
  | there i t pre hne hlk _ ih =>
    intro fuel hf
    cases fuel with
    | zero => exact absurd hf (by simp)
    | succ f =>
      have hie : i.isEmpty = false := by
        cases i with
        | nil => exact absurd rfl hne
        | cons a as => rfl
      show walkF tasks (f + 1) (some i) = .error .keyError
      simp only [walkF, hie, Bool.false_eq_true, if_false]
      rw [hlk]
      show (walkF tasks f t.parent_id).map (fun c2 => i :: c2) = .error .keyError
      rw [ih f (by simpa using hf)]
      rfl

/-- Claim C7: `getAncestors` returns the walked ancestor chain reversed
— root first, immediate parent last — whenever the queried id and every
ancestor id are present in the index (and the walk has enough fuel for
its finitely many iterations); it raises `KeyError` both when the
queried id is absent and when the walk reaches a dangling ancestor
reference. -/
theorem c7_ancestors :
    (∀ (tasks : List Task) (task_id : List Char) (t : Task) (c : List (List Char))
        (fuel : Nat), mapLookup tasks task_id = some t → WalkR tasks t.parent_id c →
        c.length ≤ fuel → getAncestors tasks task_id fuel = .ok c.reverse) ∧
    (∀ (tasks : List Task) (task_id : List Char) (fuel : Nat),
        mapLookup tasks task_id = none →
        getAncestors tasks task_id fuel = .error .keyError) ∧
    (∀ (tasks : List Task) (task_id : List Char) (t : Task) (pre : List (List Char))
        (fuel : Nat), mapLookup tasks task_id = some t → WalkD tasks t.parent_id pre →
        pre.length < fuel → getAncestors tasks task_id fuel = .error .keyError) := by
  refine ⟨?_, ?_, ?_⟩
  · intro tasks task_id t c fuel hlk hw hf
    unfold getAncestors
    rw [hlk]
    show Except.map List.reverse (walkF tasks fuel t.parent_id) = .ok c.reverse
    rw [walkF_of_walkR hw fuel hf]
    rfl
  · intro tasks task_id fuel hlk
    unfold getAncestors
    rw [hlk]
  · intro tasks task_id t pre fuel hlk hw hf
    unfold getAncestors
    rw [hlk]
    show Except.map List.reverse (walkF tasks fuel t.parent_id) = .error .keyError
    rw [walkF_of_walkD hw fuel hf]
    rfl

/-- Witness for C7 on the 3-level chain root → mid → leaf, plus both
`KeyError` modes (absent query id, dangling ancestor). -/
theorem c7_ancestors_witness :
    getAncestors chainTasks ("leaf".toList) 10 = .ok ["root".toList, "mid".toList] ∧
    getAncestors chainTasks ("root".toList) 10 = .ok [] ∧
    getAncestors chainTasks ("ghost".toList) 10 = .error .keyError ∧
    getAncestors danglingTasks ("orphan".toList) 10 = .error .keyError := by
  have w2 : WalkR chainTasks (some ("root".toList)) ["root".toList] :=
    WalkR.step _ rootTask [] (by decide) rfl WalkR.stop
  have w1 : WalkR chainTasks (some ("mid".toList)) ["mid".toList, "root".toList] :=
    WalkR.step _ midTask _ (by decide) rfl w2
  refine ⟨?_, ?_, ?_, ?_⟩
  · exact c7_ancestors.1 chainTasks ("leaf".toList) leafTask
      ["mid".toList, "root".toList] 10 rfl w1 (by decide)
  · exact c7_ancestors.1 chainTasks ("root".toList) rootTask [] 10 rfl
      WalkR.stop (by decide)
  · exact c7_ancestors.2.1 chainTasks ("ghost".toList) 10 rfl
  · exact c7_ancestors.2.2 danglingTasks ("orphan".toList) orphanTask [] 10 rfl
      (WalkD.here _ (by decide) rfl) (by decide)

theorem mapLookup_foldl_aux (tasks : List Task) (i : List Char) :
    ∀ (acc : Option Task) (t : Task),
      tasks.foldl (fun acc u => if u.id = i then some u else acc) acc = some t →
      (t ∈ tasks ∧ t.id = i) ∨ acc = some t := by
  induction tasks with
  | nil => intro acc t h; exact Or.inr h
  | cons u rest ih =>
    intro acc t h
    rw [List.foldl_cons] at h
    rcases ih _ t h with ⟨hm, hid⟩ | hacc
    · exact Or.inl ⟨List.mem_cons_of_mem u hm, hid⟩
    · by_cases hu : u.id = i
      · rw [if_pos hu] at hacc
        injection hacc with h2
        subst h2
        exact Or.inl ⟨List.mem_cons_self u rest, hu⟩
      · rw [if_neg hu] at hacc
        exact Or.inr hacc

/-- A successful dict lookup returns a member task bearing that id. -/
theorem mapLookup_mem {tasks : List Task} {i : List Char} {t : Task}
    (h : mapLookup tasks i = some t) : t ∈ tasks ∧ t.id = i := by
  rcases mapLookup_foldl_aux tasks i none t h with h2 | h2
  · exact h2
  · exact Option.noConfusion h2

/-- A duplicate-free list of elements of `l` is no longer than
`l.dedup`. -/
theorem nodup_sub_length_le_dedup {α : Type} [DecidableEq α] {seen l : List α}
    (hn : seen.Nodup) (hs : ∀ s ∈ seen, s ∈ l) :
    seen.length ≤ l.dedup.length := by
  have h1 : seen.toFinset.card = seen.length := List.toFinset_card_of_nodup hn
  have h2 : seen.toFinset ⊆ l.toFinset := by
    intro a ha
    rw [List.mem_toFinset] at ha ⊢
    exact hs a ha
  have h3 := Finset.card_le_card h2
  rw [h1, List.card_toFinset] at h3
  exact h3

/-- Core of the termination argument: under closedness and acyclicity
the ancestor walk from any pointer completes, and the visited chain —
pairwise distinct ids drawn from the index — is bounded by the number of
distinct ids. -/
theorem buildWalk (tasks : List Task) (hc : ParentClosed tasks) (ha : Acyclic tasks) :
    ∀ (n : Nat) (p : Option (List Char)) (seen : List (List Char)),
      seen.Nodup →
      (∀ s ∈ seen, s ∈ tasks.map Task.id) →
      (∀ j, p = some j → j ≠ [] →
        (∃ u, mapLookup tasks j = some u) ∧ j ∉ seen ∧
        ∀ s ∈ seen, Relation.TransGen (PStep tasks) s j) →
      n + seen.length = (tasks.map Task.id).dedup.length →
      ∃ c, WalkR tasks p c ∧
        c.length + seen.length ≤ (tasks.map Task.id).dedup.length := by
  intro n
  induction n with
  | zero =>
    intro p seen hn hsub hp hm
    cases p with
    | none =>
      refine ⟨[], WalkR.stop, ?_⟩
      simp only [List.length_nil, Nat.zero_add]
      omega
    | some j =>
      cases j with
      | nil =>
        refine ⟨[], WalkR.stopEmpty, ?_⟩
        simp only [List.length_nil, Nat.zero_add]
        omega
      | cons a as =>
        obtain ⟨⟨u, hu⟩, hnot, _⟩ := hp (a :: as) rfl (by simp)
        have hjid : (a :: as) ∈ tasks.map Task.id := by
          obtain ⟨hmem, hid⟩ := mapLookup_mem hu
          rw [← hid]
          exact List.mem_map_of_mem Task.id hmem
        have hn2 : ((a :: as) :: seen).Nodup := List.nodup_cons.mpr ⟨hnot, hn⟩
        have hle := nodup_sub_length_le_dedup hn2 (by
          intro s hs
          rcases List.mem_cons.mp hs with rfl | hs2
          · exact hjid
          · exact hsub s hs2)
        have hle2 : seen.length + 1 ≤ (tasks.map Task.id).dedup.length := by
          simpa using hle
        omega
  | succ n ih =>
    intro p seen hn hsub hp hm
    cases p with
    | none =>
      refine ⟨[], WalkR.stop, ?_⟩
      simp only [List.length_nil, Nat.zero_add]
      omega
    | some j =>
      cases j with
      | nil =>
        refine ⟨[], WalkR.stopEmpty, ?_⟩
        simp only [List.length_nil, Nat.zero_add]
        omega
      | cons a as =>
        obtain ⟨⟨u, hu⟩, hnot, htrans⟩ := hp (a :: as) rfl (by simp)
        have hjid : (a :: as) ∈ tasks.map Task.id := by
          obtain ⟨hmem, hid⟩ := mapLookup_mem hu
          rw [← hid]
          exact List.mem_map_of_mem Task.id hmem
        have hn2 : ((a :: as) :: seen).Nodup := List.nodup_cons.mpr ⟨hnot, hn⟩
        have hsub2 : ∀ s ∈ (a :: as) :: seen, s ∈ tasks.map Task.id := by
          intro s hs
          rcases List.mem_cons.mp hs with rfl | hs2
          · exact hjid
          · exact hsub s hs2
        have hp2 : ∀ j2, u.parent_id = some j2 → j2 ≠ [] →
            (∃ v, mapLookup tasks j2 = some v) ∧ j2 ∉ (a :: as) :: seen ∧
            ∀ s ∈ (a :: as) :: seen, Relation.TransGen (PStep tasks) s j2 := by
          intro j2 hpar hne2
          have hstep : PStep tasks (a :: as) j2 := ⟨u, hu, hpar, hne2⟩
          refine ⟨hc (a :: as) u j2 hu hpar hne2, ?_, ?_⟩
          · intro hmem
            rcases List.mem_cons.mp hmem with heq | hmem2
            · exact ha (a :: as) (Relation.TransGen.single (heq ▸ hstep))
            · exact ha j2 (Relation.TransGen.tail (htrans j2 hmem2) hstep)
          · intro s hs
            rcases List.mem_cons.mp hs with rfl | hs2
            · exact Relation.TransGen.single hstep
            · exact Relation.TransGen.tail (htrans s hs2) hstep
        have hm2 : n + ((a :: as) :: seen).length = (tasks.map Task.id).dedup.length := by
          have : ((a :: as) :: seen).length = seen.length + 1 := by simp
          omega
        obtain ⟨c, hwc, hlen⟩ := ih u.parent_id ((a :: as) :: seen) hn2 hsub2 hp2 hm2
        refine ⟨(a :: as) :: c, WalkR.step (a :: as) u c (by simp) hu hwc, ?_⟩
        have hlen2 : c.length + (seen.length + 1) ≤ (tasks.map Task.id).dedup.length := by
          simpa using hlen
        have : ((a :: as) :: c).length = c.length + 1 := by simp
        omega

/-- Transporting a strictly decreasing rank along parent steps yields
acyclicity. -/
theorem acyclic_of_rank {tasks : List Task} (r : List Char → Nat)
    (h : ∀ i j, PStep tasks i j → r j < r i) : Acyclic tasks := by
  intro i hi
  have hlt : ∀ a b, Relation.TransGen (PStep tasks) a b → r b < r a := by
    intro a b hab
    induction hab with
    | single hs => exact h _ _ hs
    | tail _ hs ih => exact lt_trans (h _ _ hs) ih
  exact absurd (hlt i i hi) (lt_irrefl _)

/-- Claim C10: when every walkable parent reference resolves in the
index and the parent-pointer graph is acyclic, `getAncestors`
terminates — fuel equal to the number of tasks suffices for any indexed
id; and on a cyclic parent chain the walk is non-terminating: it runs
out of any amount of fuel. -/
theorem c10_termination :
    (∀ tasks : List Task, ParentClosed tasks → Acyclic tasks →
      ∀ (task_id : List Char) (t : Task), mapLookup tasks task_id = some t →
        ∃ c, getAncestors tasks task_id tasks.length = .ok c) ∧
    (∀ fuel : Nat, getAncestors cycTasks ("a".toList) fuel = .error .fuelOut) := by
  constructor
  · intro tasks hc ha task_id t hlk
    have hp0 : ∀ j, t.parent_id = some j → j ≠ [] →
        (∃ u, mapLookup tasks j = some u) ∧ j ∉ ([] : List (List Char)) ∧
        ∀ s ∈ ([] : List (List Char)), Relation.TransGen (PStep tasks) s j := by
      intro j hj hne
      exact ⟨hc task_id t j hlk hj hne, by simp, by simp⟩
    obtain ⟨c, hw, hlen⟩ := buildWalk tasks hc ha ((tasks.map Task.id).dedup.length)
      t.parent_id [] List.nodup_nil (by simp) hp0 (by simp)
    have hd : (tasks.map Task.id).dedup.length ≤ tasks.length := by
      have h1 := (List.dedup_sublist (tasks.map Task.id)).length_le
      rw [List.length_map] at h1
      exact h1
    have hfuel : c.length ≤ tasks.length := by
      have h2 : c.length + 0 ≤ (tasks.map Task.id).dedup.length := by simpa using hlen
      omega
    refine ⟨c.reverse, ?_⟩
    unfold getAncestors
    rw [hlk]
    show Except.map List.reverse (walkF tasks tasks.length t.parent_id) = .ok c.reverse
    rw [walkF_of_walkR hw tasks.length hfuel]
    rfl
  · have hcyc : ∀ fuel : Nat,
        walkF cycTasks fuel (some ("a".toList)) = .error .fuelOut ∧
        walkF cycTasks fuel (some ("b".toList)) = .error .fuelOut := by
      intro fuel
      induction fuel with
      | zero => exact ⟨rfl, rfl⟩
      | succ f ih =>
        constructor
        · show (walkF cycTasks f (some ("b".toList))).map
            (fun c => ("a".toList) :: c) = .error .fuelOut
          rw [ih.2]
          rfl
        · show (walkF cycTasks f (some ("a".toList))).map
            (fun c => ("b".toList) :: c) = .error .fuelOut
          rw [ih.1]
          rfl
    intro fuel
    show Except.map List.reverse (walkF cycTasks fuel (some ("b".toList))) =
      .error .fuelOut
    rw [(hcyc fuel).2]
    rfl

/-- Witness for C10 on the 3-level chain: the collection is closed and
acyclic (via the depth rank), so the walk terminates with fuel 3. -/
theorem c10_termination_witness :
    ∃ c, getAncestors chainTasks ("leaf".toList) chainTasks.length = .ok c := by
  have hc : ParentClosed chainTasks := by
    intro i t j hlk hpar hne
    obtain ⟨hmem, hid⟩ := mapLookup_mem hlk
    simp only [chainTasks, List.mem_cons, List.not_mem_nil, or_false] at hmem
    rcases hmem with rfl | rfl | rfl
    · exact absurd hpar (by simp [rootTask, mkTask])
    · have hj : ("root".toList) = j := by simpa [midTask, mkTask] using hpar
      exact ⟨rootTask, by rw [← hj]; rfl⟩
    · have hj : ("mid".toList) = j := by simpa [leafTask, mkTask] using hpar
      exact ⟨midTask, by rw [← hj]; rfl⟩
  have ha : Acyclic chainTasks := by
    apply acyclic_of_rank
      (fun s => if s = "leaf".toList then 2 else if s = "mid".toList then 1 else 0)
    intro i j hstep
    obtain ⟨t, hlk, hpar, hne⟩ := hstep
    obtain ⟨hmem, hid⟩ := mapLookup_mem hlk
    simp only [chainTasks, List.mem_cons, List.not_mem_nil, or_false] at hmem
    rcases hmem with rfl | rfl | rfl
    · exact absurd hpar (by simp [rootTask, mkTask])
    · have hj : ("root".toList) = j := by simpa [midTask, mkTask] using hpar
      rw [← hj, ← hid]
      decide
    · have hj : ("mid".toList) = j := by simpa [leafTask, mkTask] using hpar
      rw [← hj, ← hid]
      decide
  exact c10_termination.1 chainTasks hc ha ("leaf".toList) leafTask rfl

/-! ## Claim C9: tags are extracted and stripped exactly -/

theorem drop_length_takeWhile (p : Char → Bool) :
    ∀ l : List Char, l.drop (l.takeWhile p).length = l.dropWhile p := by
  intro l
  induction l with
  | nil => rfl
  | cons c rest ih =>
    by_cases hc : p c
    · rw [List.takeWhile_cons_of_pos hc, List.dropWhile_cons_of_pos hc]
      simpa using ih
    · rw [List.takeWhile_cons_of_neg hc, List.dropWhile_cons_of_neg hc]
      rfl

theorem takeWhile_append_drop (p : Char → Bool) (l : List Char) :
    l.takeWhile p ++ l.drop (l.takeWhile p).length = l := by
  rw [drop_length_takeWhile]
  exact List.takeWhile_append_dropWhile p l

theorem interleaveTags_cons (c : Char) (s0 : List Char) (segs tags : List (List Char)) :
    interleaveTags ((c :: s0) :: segs) tags = c :: interleaveTags (s0 :: segs) tags := by
  cases tags <;> rfl

/-- The common decomposition computed by the `#\w+` scan, at any
sufficient fuel: the input splits into non-tag segments interleaved
with the extracted tags; `strip_hashtags` returns exactly the
concatenated segments; every extracted tag is `#` followed by a
nonempty word-character run. -/
theorem tags_decomp : ∀ (f : Nat) (s : List Char), s.length ≤ f →
    ∃ segs : List (List Char),
      segs.length = (extractTagsF f s).length + 1 ∧
      interleaveTags segs (extractTagsF f s) = s ∧
      stripHashtagsF f s = segs.join ∧
      ∀ t ∈ extractTagsF f s, ∃ w, t = '#' :: w ∧ w ≠ [] ∧
        ∀ c ∈ w, wordChar c = true := by
  intro f
  induction f with
  | zero =>
    intro s hs
    have hnil : s = [] := List.length_eq_zero.mp (Nat.le_zero.mp hs)
    subst hnil
    exact ⟨[[]], rfl, rfl, rfl, by simp [extractTagsF]⟩
  | succ f ih =>
    intro s hs
    cases s with
    | nil => exact ⟨[[]], rfl, rfl, rfl, by simp [extractTagsF]⟩
    | cons c rest =>
      by_cases hc : c = '#'
      · subst hc
        by_cases hrun : (rest.takeWhile wordChar).isEmpty = true
        · have he : extractTagsF (f + 1) ('#' :: rest) = extractTagsF f rest := by
            simp only [extractTagsF, if_pos rfl, hrun, if_true]
          have hst : stripHashtagsF (f + 1) ('#' :: rest) =
              '#' :: stripHashtagsF f rest := by
            simp only [stripHashtagsF, hrun, eq_self_iff_true, if_true]
          obtain ⟨segs, hlen, hint, hstrip, htags⟩ := ih rest (by simpa using hs)
          cases segs with
          | nil => exact absurd hlen (by simp)
          | cons s0 srest =>
            rw [he, hst]
            refine ⟨('#' :: s0) :: srest, by simpa using hlen, ?_, ?_, htags⟩
            · rw [interleaveTags_cons, hint]
            · rw [hstrip]
              simp
        · have hrun2 : (rest.takeWhile wordChar).isEmpty = false := by
            cases hb : (rest.takeWhile wordChar).isEmpty
            · rfl
            · exact absurd hb hrun
          have he : extractTagsF (f + 1) ('#' :: rest) =
              ('#' :: rest.takeWhile wordChar) ::
                extractTagsF f (rest.drop (rest.takeWhile wordChar).length) := by
            simp only [extractTagsF, hrun2, eq_self_iff_true, if_true,
              Bool.false_eq_true, if_false]
          have hst : stripHashtagsF (f + 1) ('#' :: rest) =
              stripHashtagsF f (rest.drop (rest.takeWhile wordChar).length) := by
            simp only [stripHashtagsF, hrun2, eq_self_iff_true, if_true,
              Bool.false_eq_true, if_false]
          have hlr : (rest.drop (rest.takeWhile wordChar).length).length ≤ f := by
            have h1 : rest.length ≤ f := by simpa using hs
            have h2 := List.length_drop (rest.takeWhile wordChar).length rest
            omega
          obtain ⟨segs, hlen, hint, hstrip, htags⟩ := ih _ hlr
          rw [he, hst]
          refine ⟨[] :: segs, by simpa using hlen, ?_, ?_, ?_⟩
          · simp only [interleaveTags, List.nil_append]
            rw [hint, List.cons_append, takeWhile_append_drop]
          · rw [hstrip]
            simp
          · intro t ht
            rcases List.mem_cons.mp ht with heq | ht2
            · refine ⟨rest.takeWhile wordChar, heq, ?_, ?_⟩
              · intro hnil
                rw [hnil] at hrun2
                exact Bool.noConfusion hrun2
              · intro d hd
                exact List.mem_takeWhile_imp hd
            · exact htags t ht2
      · have he : extractTagsF (f + 1) (c :: rest) = extractTagsF f rest := by
          simp only [extractTagsF, if_neg hc]
        have hst : stripHashtagsF (f + 1) (c :: rest) = c :: stripHashtagsF f rest := by
          simp only [stripHashtagsF, if_neg hc]
        obtain ⟨segs, hlen, hint, hstrip, htags⟩ := ih rest (by simpa using hs)
        cases segs with
        | nil => exact absurd hlen (by simp)
        | cons s0 srest =>
          rw [he, hst]
          refine ⟨(c :: s0) :: srest, by simpa using hlen, ?_, ?_, htags⟩
          · rw [interleaveTags_cons, hint]
          · rw [hstrip]
            simp

/-- Claim C9: `extract_tags` returns exactly the `#`-plus-word-run
substrings in left-to-right order, duplicates preserved, and
`strip_hashtags` removes exactly those substrings and nothing else: the
raw name is the interleaving of the preserved segments with the
extracted tags, and the stripped name is the concatenation of exactly
those segments. -/
theorem c9_tags_exact (s : List Char) :
    ∃ segs : List (List Char),
      segs.length = (extractTags s).length + 1 ∧
      interleaveTags segs (extractTags s) = s ∧
      stripHashtags s = segs.join ∧
      ∀ t ∈ extractTags s, ∃ w, t = '#' :: w ∧ w ≠ [] ∧
        ∀ c ∈ w, wordChar c = true :=
  tags_decomp s.length s (Nat.le_refl _)

/-! ## Claim C3: idempotence of `clean_name` -/

/-- If the head of the stripped string is a word character, it was
already the head of the input. -/
theorem stripHashtagsF_head_word : ∀ (f : Nat) (s : List Char) (c : Char),
    s.length ≤ f → (stripHashtagsF f s).head? = some c → wordChar c = true →
    s.head? = some c := by
  intro f
  induction f with
  | zero => intro s c _ hh _; exact Option.noConfusion hh
  | succ f ih =>
    intro s c hs hh hw
    cases s with
    | nil => exact Option.noConfusion hh
    | cons a rest =>
      by_cases ha : a = '#'
      · subst ha
        by_cases hrun : (rest.takeWhile wordChar).isEmpty = true
        · have he : stripHashtagsF (f + 1) ('#' :: rest) =
              '#' :: stripHashtagsF f rest := by
            simp only [stripHashtagsF, hrun, eq_self_iff_true, if_true]
          rw [he] at hh
          have hh2 : ('#' : Char) = c := Option.some.inj hh
          rw [← hh2] at hw
          exact absurd hw (by decide)
        · have hrun2 : (rest.takeWhile wordChar).isEmpty = false := by
            cases hb : (rest.takeWhile wordChar).isEmpty
            · rfl
            · exact absurd hb hrun
          have he : stripHashtagsF (f + 1) ('#' :: rest) =
              stripHashtagsF f (rest.drop (rest.takeWhile wordChar).length) := by
            simp only [stripHashtagsF, hrun2, eq_self_iff_true, if_true,
              Bool.false_eq_true, if_false]
          rw [he] at hh
          have hlr : (rest.drop (rest.takeWhile wordChar).length).length ≤ f := by
            have h1 : rest.length ≤ f := by simpa using hs
            have h2 := List.length_drop (rest.takeWhile wordChar).length rest
            omega
          have hhead := ih _ c hlr hh hw
          rw [drop_length_takeWhile] at hhead
          have h3 := List.head?_dropWhile_not wordChar rest
          rw [hhead] at h3
          rw [h3] at hw
          exact Bool.noConfusion hw
      · have he : stripHashtagsF (f + 1) (a :: rest) = a :: stripHashtagsF f rest := by
          simp only [stripHashtagsF, if_neg ha]
        rw [he] at hh
        have h2 : a = c := Option.some.inj hh
        rw [h2]
        rfl

/-- The stripped string contains no remaining `#\w+` match. -/
theorem stripHashtagsF_noTagChain : ∀ (f : Nat) (s : List Char), s.length ≤ f →
    noTagChain (stripHashtagsF f s) := by
  intro f
  induction f with
  | zero => intro s _; exact List.chain'_nil
  | succ f ih =>
    intro s hs
    cases s with
    | nil => exact List.chain'_nil
    | cons a rest =>
      by_cases ha : a = '#'
      · subst ha
        by_cases hrun : (rest.takeWhile wordChar).isEmpty = true
        · have he : stripHashtagsF (f + 1) ('#' :: rest) =
              '#' :: stripHashtagsF f rest := by
            simp only [stripHashtagsF, hrun, eq_self_iff_true, if_true]
          rw [he]
          apply List.Chain'.cons' (ih rest (by simpa using hs))
          intro y hy _
          by_cases hwy : wordChar y = true
          · exfalso
            have hhy : (stripHashtagsF f rest).head? = some y := by
              simpa using hy
            have hry := stripHashtagsF_head_word f rest y (by simpa using hs) hhy hwy
            cases rest with
            | nil => exact Option.noConfusion hry
            | cons d rest2 =>
              have hd : d = y := Option.some.inj hry
              rw [List.takeWhile_cons_of_pos (by rw [hd]; exact hwy)] at hrun
              simp at hrun
          · cases hb : wordChar y
            · rfl
            · exact absurd hb hwy
        · have hrun2 : (rest.takeWhile wordChar).isEmpty = false := by
            cases hb : (rest.takeWhile wordChar).isEmpty
            · rfl
            · exact absurd hb hrun
          have he : stripHashtagsF (f + 1) ('#' :: rest) =
              stripHashtagsF f (rest.drop (rest.takeWhile wordChar).length) := by
            simp only [stripHashtagsF, hrun2, eq_self_iff_true, if_true,
              Bool.false_eq_true, if_false]
          rw [he]
          have hlr : (rest.drop (rest.takeWhile wordChar).length).length ≤ f := by
            have h1 : rest.length ≤ f := by simpa using hs
            have h2 := List.length_drop (rest.takeWhile wordChar).length rest
            omega
          exact ih _ hlr
      · have he : stripHashtagsF (f + 1) (a :: rest) = a :: stripHashtagsF f rest := by
          simp only [stripHashtagsF, if_neg ha]
        rw [he]
        apply List.Chain'.cons' (ih rest (by simpa using hs))
        intro y _ hay
        exact absurd hay ha

/-- Strings with no `#\w+` match are fixed by `strip_hashtags`. -/
theorem noTagChain_strip_fix : ∀ (f : Nat) (s : List Char), s.length ≤ f →
    noTagChain s → stripHashtagsF f s = s := by
  intro f
  induction f with
  | zero =>
    intro s hs _
    have hnil : s = [] := List.length_eq_zero.mp (Nat.le_zero.mp hs)
    subst hnil
    rfl
  | succ f ih =>
    intro s hs hch
    cases s with
    | nil => rfl
    | cons a rest =>
      have hch2 : noTagChain rest := (List.chain'_cons'.mp hch).2
      by_cases ha : a = '#'
      · subst ha
        have hhead : ∀ y ∈ rest.head?, wordChar y = false :=
          fun y hy => (List.chain'_cons'.mp hch).1 y hy rfl
        have hrun : (rest.takeWhile wordChar).isEmpty = true := by
          cases rest with
          | nil => rfl
          | cons d rest2 =>
            have hd : wordChar d = false := hhead d (by simp)
            rw [List.takeWhile_cons_of_neg (by simp [hd])]
            rfl
        have he : stripHashtagsF (f + 1) ('#' :: rest) =
            '#' :: stripHashtagsF f rest := by
          simp only [stripHashtagsF, hrun, eq_self_iff_true, if_true]
        rw [he, ih rest (by simpa using hs) hch2]
      · have he : stripHashtagsF (f + 1) (a :: rest) = a :: stripHashtagsF f rest := by
          simp only [stripHashtagsF, if_neg ha]
        rw [he, ih rest (by simpa using hs) hch2]

/-- Characters of the stripped string come from the input. -/
theorem stripHashtagsF_subset : ∀ (f : Nat) (s : List Char) (c : Char),
    c ∈ stripHashtagsF f s → c ∈ s := by
  intro f
  induction f with
  | zero => intro s c h; exact absurd h (List.not_mem_nil c)
  | succ f ih =>
    intro s c h
    cases s with
    | nil => exact absurd h (List.not_mem_nil c)
    | cons a rest =>
      by_cases ha : a = '#'
      · subst ha
        by_cases hrun : (rest.takeWhile wordChar).isEmpty = true
        · have he : stripHashtagsF (f + 1) ('#' :: rest) =
              '#' :: stripHashtagsF f rest := by
            simp only [stripHashtagsF, hrun, eq_self_iff_true, if_true]
          rw [he] at h
          rcases List.mem_cons.mp h with heq | h2
          · rw [heq]
            exact List.mem_cons_self _ _
          · exact List.mem_cons_of_mem _ (ih rest c h2)
        · have hrun2 : (rest.takeWhile wordChar).isEmpty = false := by
            cases hb : (rest.takeWhile wordChar).isEmpty
            · rfl
            · exact absurd hb hrun
          have he : stripHashtagsF (f + 1) ('#' :: rest) =
              stripHashtagsF f (rest.drop (rest.takeWhile wordChar).length) := by
            simp only [stripHashtagsF, hrun2, eq_self_iff_true, if_true,
              Bool.false_eq_true, if_false]
          rw [he] at h
          exact List.mem_cons_of_mem _ (List.mem_of_mem_drop (ih _ c h))
      · have he : stripHashtagsF (f + 1) (a :: rest) = a :: stripHashtagsF f rest := by
          simp only [stripHashtagsF, if_neg ha]
        rw [he] at h
        rcases List.mem_cons.mp h with heq | h2
        · rw [heq]
          exact List.mem_cons_self _ _
        · exact List.mem_cons_of_mem _ (ih rest c h2)

/-- `strip_due_date` is the identity on markup-free strings (its
pattern starts with `, Due <time `, which contains `<`). -/
theorem stripDueDateF_id : ∀ (f : Nat) (s : List Char), s.length ≤ f → '<' ∉ s →
    stripDueDateF f s = s := by
  intro f
  induction f with
  | zero =>
    intro s hs _
    have hnil : s = [] := List.length_eq_zero.mp (Nat.le_zero.mp hs)
    subst hnil
    rfl
  | succ f ih =>
    intro s hs hmem
    cases s with
    | nil => rfl
    | cons c rest =>
      have hnp : (", Due <time ".toList).isPrefixOf (c :: rest) = false := by
        cases hb : (", Due <time ".toList).isPrefixOf (c :: rest)
        · rfl
        · exfalso
          have hpre : (", Due <time ".toList) <+: (c :: rest) :=
            List.isPrefixOf_iff_prefix.mp hb
          exact hmem (hpre.subset (by decide))
      have he : stripDueDateF (f + 1) (c :: rest) = c :: stripDueDateF f rest := by
        simp only [stripDueDateF, hnp, Bool.false_eq_true, if_false]
      rw [he, ih rest (by simpa using hs) (fun hm => hmem (List.mem_cons_of_mem c hm))]

/-- `strip_markup` is the identity on markup-free strings. -/
theorem stripHtmlTagsF_id : ∀ (f : Nat) (s : List Char), s.length ≤ f → '<' ∉ s →
    stripHtmlTagsF f s = s := by
  intro f
  induction f with
  | zero =>
    intro s hs _
    have hnil : s = [] := List.length_eq_zero.mp (Nat.le_zero.mp hs)
    subst hnil
    rfl
  | succ f ih =>
    intro s hs hmem
    cases s with
    | nil => rfl
    | cons c rest =>
      have hc : ¬ (c = '<') := fun h => hmem (by rw [← h]; exact List.mem_cons_self _ _)
      have he : stripHtmlTagsF (f + 1) (c :: rest) = c :: stripHtmlTagsF f rest := by
        simp only [stripHtmlTagsF, if_neg hc]
      rw [he, ih rest (by simpa using hs) (fun hm => hmem (List.mem_cons_of_mem c hm))]

/-- `strip_hashtags` is idempotent. -/
theorem stripHashtags_idem (s : List Char) :
    stripHashtags (stripHashtags s) = stripHashtags s :=
  noTagChain_strip_fix (stripHashtags s).length (stripHashtags s) (Nat.le_refl _)
    (stripHashtagsF_noTagChain s.length s (Nat.le_refl _))

/-- Claim C3, counterexample: `clean_name` is not idempotent.  On
`"#<a>b"` the hashtag pass finds no `#\w+` match (the `#` is followed by
`<`), but the markup pass then deletes `<a>`, gluing `#` onto `b`; a
second application removes the now-formed tag `#b`. -/
theorem c3_clean_name_cx :
    extractTaskName (extractTaskName ("#<a>b".toList)) ≠
      extractTaskName ("#<a>b".toList) := by decide

/-- Claim C3, amended: `clean_name` is idempotent on raw names that
contain no `<` character (no markup).  On such strings due-date and
markup stripping are the identity, so `clean_name` reduces to
`strip_tags`, which is idempotent.  In general idempotence fails:
markup removal can expose a new `#\w+` match (see the counterexample). -/
theorem c3_clean_name_idem (s : List Char) (h : '<' ∉ s) :
    extractTaskName (extractTaskName s) = extractTaskName s := by
  have hD : stripDueDate s = s := stripDueDateF_id s.length s (Nat.le_refl _) h
  have hTsub : '<' ∉ stripHashtags s :=
    fun hm => h (stripHashtagsF_subset s.length s '<' hm)
  have hH : stripHtmlTags (stripHashtags s) = stripHashtags s :=
    stripHtmlTagsF_id (stripHashtags s).length _ (Nat.le_refl _) hTsub
  have h1 : extractTaskName s = stripHashtags s := by
    unfold extractTaskName
    rw [hD]
    exact hH
  rw [h1]
  have hDu : stripDueDate (stripHashtags s) = stripHashtags s :=
    stripDueDateF_id _ _ (Nat.le_refl _) hTsub
  have hTu : stripHashtags (stripHashtags s) = stripHashtags s := stripHashtags_idem s
  unfold extractTaskName
  rw [hDu, hTu]
  exact hH

/-- Witness for C3 on a markup-free raw name. -/
theorem c3_clean_name_witness :
    extractTaskName (extractTaskName ("Write up #Goal notes".toList)) =
      extractTaskName ("Write up #Goal notes".toList) :=
  c3_clean_name_idem _ (by decide)

/-! ## Claim C6: weekly bucketing -/

theorem lookup_addToWeekMap_self (ws we : Int) (t : Task) :
    ∀ m : List (Int × (List Task × Int × Int)),
      List.lookup ws (addToWeekMap m ws we t) =
        match List.lookup ws m with
        | some (l, s, e) => some (l ++ [t], s, e)
        | none => some ([t], ws, we) := by
  intro m
  induction m with
  | nil => simp [addToWeekMap, List.lookup]
  | cons p rest ih =>
    obtain ⟨k2, l, s, e⟩ := p
    by_cases h2 : k2 = ws
    · subst h2
      simp [addToWeekMap, List.lookup]
    · have h3 : ¬ (ws = k2) := fun h => h2 h.symm
      have hb : (ws == k2) = false := beq_eq_false_iff_ne.mpr h3
      simp only [addToWeekMap, if_neg h2]
      simp [List.lookup, hb, ih]

theorem lookup_addToWeekMap_other (ws we : Int) (t : Task) (k : Int) (hk : k ≠ ws) :
    ∀ m : List (Int × (List Task × Int × Int)),
      List.lookup k (addToWeekMap m ws we t) = List.lookup k m := by
  intro m
  induction m with
  | nil =>
    have hb : (k == ws) = false := beq_eq_false_iff_ne.mpr hk
    simp [addToWeekMap, List.lookup, hb]
  | cons p rest ih =>
    obtain ⟨k2, l, s, e⟩ := p
    by_cases h2 : k2 = ws
    · subst h2
      have hb : (k == k2) = false := beq_eq_false_iff_ne.mpr hk
      simp [addToWeekMap, List.lookup, hb]
    · simp only [addToWeekMap, if_neg h2]
      by_cases h4 : k = k2
      · subst h4
        simp [List.lookup]
      · have hb : (k == k2) = false := beq_eq_false_iff_ne.mpr h4
        simp [List.lookup, hb, ih]

/-- `addWeekTask` preserves the bucket invariant. -/
theorem weekMapInv_addWeekTask {m : List (Int × (List Task × Int × Int))}
    (hm : WeekMapInv m) (u : Task) : WeekMapInv (addWeekTask m u) := by
  intro k l s e h
  unfold addWeekTask at h
  cases hcu : u.completion_date with
  | none => rw [hcu] at h; exact hm k l s e h
  | some cu =>
    rw [hcu] at h
    cases hdu : u.due_date with
    | none => rw [hdu] at h; exact hm k l s e h
    | some du =>
      rw [hdu] at h
      by_cases hk : k = weekStartOf du
      · subst hk
        rw [lookup_addToWeekMap_self] at h
        cases hl : List.lookup (weekStartOf du) m with
        | none =>
          rw [hl] at h
          have h2 : (([u] : List Task), weekStartOf du, weekStartOf du + 7 * secPerDay) =
              (l, s, e) := Option.some.inj h
          simp only [Prod.ext_iff] at h2
          obtain ⟨-, hs2, he2⟩ := h2
          exact ⟨hs2.symm, he2.symm⟩
        | some v =>
          obtain ⟨l0, s0, e0⟩ := v
          rw [hl] at h
          have h2 : ((l0 ++ [u] : List Task), s0, e0) = (l, s, e) := Option.some.inj h
          simp only [Prod.ext_iff] at h2
          obtain ⟨-, hs2, he2⟩ := h2
          obtain ⟨hsk, hek⟩ := hm (weekStartOf du) l0 s0 e0 hl
          exact ⟨hs2 ▸ hsk, he2 ▸ hek⟩
      · rw [lookup_addToWeekMap_other _ _ _ _ hk] at h
        exact hm k l s e h

/-- Existing bucket contents survive later loop iterations. -/
theorem addWeekTask_preserves {m : List (Int × (List Task × Int × Int))}
    {k : Int} {l : List Task} {s e : Int} {t : Task}
    (h : List.lookup k m = some (l, s, e)) (ht : t ∈ l) (u : Task) :
    ∃ l2, List.lookup k (addWeekTask m u) = some (l2, s, e) ∧ t ∈ l2 := by
  unfold addWeekTask
  cases u.completion_date with
  | none => exact ⟨l, h, ht⟩
  | some cu =>
    cases u.due_date with
    | none => exact ⟨l, h, ht⟩
    | some du =>
      by_cases hk : k = weekStartOf du
      · subst hk
        rw [lookup_addToWeekMap_self, h]
        exact ⟨l ++ [u], rfl, by simp [ht]⟩
      · rw [lookup_addToWeekMap_other _ _ _ _ hk]
        exact ⟨l, h, ht⟩

/-- Processing a completed, due-dated task puts it into the bucket of
its week start. -/
theorem addWeekTask_inserts {m : List (Int × (List Task × Int × Int))}
    (hm : WeekMapInv m) {u : Task} {cu du : Int}
    (hcu : u.completion_date = some cu) (hdu : u.due_date = some du) :
    ∃ l2, List.lookup (weekStartOf du) (addWeekTask m u) =
        some (l2, weekStartOf du, weekStartOf du + 7 * secPerDay) ∧ u ∈ l2 := by
  unfold addWeekTask
  rw [hcu, hdu]
  rw [lookup_addToWeekMap_self]
  cases hl : List.lookup (weekStartOf du) m with
  | none => exact ⟨[u], rfl, by simp⟩
  | some v =>
    obtain ⟨l0, s0, e0⟩ := v
    obtain ⟨hsk, hek⟩ := hm (weekStartOf du) l0 s0 e0 hl
    exact ⟨l0 ++ [u], by rw [hsk, hek], by simp⟩

theorem foldl_addWeekTask_preserves (ts : List Task) :
    ∀ (m : List (Int × (List Task × Int × Int))) (k : Int) (l : List Task)
      (s e : Int) (t : Task), List.lookup k m = some (l, s, e) → t ∈ l →
      ∃ l2, List.lookup k (ts.foldl addWeekTask m) = some (l2, s, e) ∧ t ∈ l2 := by
  induction ts with
  | nil => intro m k l s e t h ht; exact ⟨l, h, ht⟩
  | cons u ts ih =>
    intro m k l s e t h ht
    obtain ⟨l2, h2, ht2⟩ := addWeekTask_preserves h ht u
    exact ih (addWeekTask m u) k l2 s e t h2 ht2

theorem foldl_addWeekTask_mem (ts : List Task) :
    ∀ (m : List (Int × (List Task × Int × Int))) (t : Task) (d : Int),
      WeekMapInv m → t ∈ ts → (t.completion_date).isSome = true →
      t.due_date = some d →
      ∃ l, List.lookup (weekStartOf d) (ts.foldl addWeekTask m) =
          some (l, weekStartOf d, weekStartOf d + 7 * secPerDay) ∧ t ∈ l := by
  induction ts with
  | nil => intro m t d _ ht _ _; exact absurd ht (List.not_mem_nil t)
  | cons u ts ih =>
    intro m t d hm ht hc hd
    rcases List.mem_cons.mp ht with heq | ht2
    · subst heq
      obtain ⟨cu, hcu⟩ := Option.isSome_iff_exists.mp hc
      obtain ⟨l2, h2, ht2⟩ := addWeekTask_inserts hm hcu hd
      exact foldl_addWeekTask_preserves ts (addWeekTask m t) _ l2 _ _ t h2 ht2
    · exact ih (addWeekTask m u) t d (weekMapInv_addWeekTask hm u) ht2 hc hd

/-- Claim C6, amended: each completed task with a due date lands in the
bucket whose start is `due_date - (weekday + 1)` days — for a Wednesday
due date the preceding Sunday, not Saturday — and whose end is that
start plus 7 days; every other such task with the same week start lands
in the same single bucket. -/
theorem c6_weekly_buckets (tasks : List Task) (t : Task) (d : Int)
    (ht : t ∈ tasks) (hc : (t.completion_date).isSome = true)
    (hd : t.due_date = some d) :
    (∃ l, List.lookup (weekStartOf d) (getCompletedTasksByWeek tasks) =
        some (l, weekStartOf d, weekStartOf d + 7 * secPerDay) ∧ t ∈ l) ∧
    (∀ (t2 : Task) (d2 : Int), t2 ∈ tasks → (t2.completion_date).isSome = true →
      t2.due_date = some d2 → weekStartOf d2 = weekStartOf d →
      ∃ l, List.lookup (weekStartOf d) (getCompletedTasksByWeek tasks) =
          some (l, weekStartOf d, weekStartOf d + 7 * secPerDay) ∧
        t ∈ l ∧ t2 ∈ l) := by
  have hinv : WeekMapInv ([] : List (Int × (List Task × Int × Int))) := by
    intro k l s e h
    exact Option.noConfusion h
  have h1 := foldl_addWeekTask_mem tasks [] t d hinv ht hc hd
  refine ⟨h1, ?_⟩
  intro t2 d2 ht2 hc2 hd2 hw
  have h2 := foldl_addWeekTask_mem tasks [] t2 d2 hinv ht2 hc2 hd2
  rw [hw] at h2
  obtain ⟨l, hl, htl⟩ := h1
  obtain ⟨l2, hl2, ht2l⟩ := h2
  have h3 : (l, weekStartOf d, weekStartOf d + 7 * secPerDay) =
      (l2, weekStartOf d, weekStartOf d + 7 * secPerDay) :=
    Option.some.inj (hl.symm.trans hl2)
  have h4 : l = l2 := congrArg (fun p => p.1) h3
  exact ⟨l, hl, htl, h4 ▸ ht2l⟩

/-- Witness for C6: the Wednesday 2024-03-13 task and the Thursday
2024-03-14 task share the single bucket starting Sunday 2024-03-10. -/
theorem c6_weekly_buckets_witness :
    ∃ l, List.lookup (weekStartOf (dateToSec 2024 3 13))
        (getCompletedTasksByWeek weekDemoTasks) =
      some (l, weekStartOf (dateToSec 2024 3 13),
        weekStartOf (dateToSec 2024 3 13) + 7 * secPerDay) ∧
      wedTask ∈ l ∧ thuTask ∈ l := by
  have h := (c6_weekly_buckets weekDemoTasks wedTask (dateToSec 2024 3 13)
      (by decide) (by decide) rfl).2 thuTask (dateToSec 2024 3 14)
      (by decide) (by decide) rfl (by decide)
  exact h

/-- Claim C6, counterexample: for a Wednesday due date (2024-03-13,
weekday 2) the single produced bucket starts on 2024-03-10 — a Sunday
(weekday 6) — not on the preceding Saturday 2024-03-09 (weekday 5) as
the claim's parenthetical asserts. -/
theorem c6_wednesday_sunday_cx :
    getCompletedTasksByWeek [wedTask] =
      [(dateToSec 2024 3 10,
        ([wedTask], dateToSec 2024 3 10, dateToSec 2024 3 17))] ∧
    pyWeekdayOfSec (dateToSec 2024 3 13) = 2 ∧
    pyWeekdayOfSec (dateToSec 2024 3 10) = 6 ∧
    pyWeekdayOfSec (dateToSec 2024 3 9) = 5 ∧
    dateToSec 2024 3 10 ≠ dateToSec 2024 3 9 := by
  refine ⟨by decide, by decide, by decide, by decide, by decide⟩

end PTM
